import Mathlib

/-!
Shallow embedding of the day-2 intcode interpreter (src/day_2/src/main.rs).

Machine integers: Rust `i64` cell values are modelled as `Int` and `usize`
addresses as `Nat`; the cast `value as usize` wraps modulo `2 ^ 64`, modelled
explicitly by `toAddress`.  Every fallible operation (a Rust slice-index panic)
is modelled as `Option`/an explicit `bounds` outcome.  The CPU loop is modelled
with explicit fuel; `execute` supplies fuel `mem.length + 1`, which is proved
sufficient (`executeFuel_no_fuel_exhaustion`), so the `outOfFuel` marker never
escapes and the model's observable outcomes are exactly halt or a bounds panic.
-/

namespace Day2

abbrev Value := Int

abbrev Address := Nat

/-- The Rust cast `value as Address` where `Address = usize`: an `i64` to
`usize` conversion wraps two's-complement, i.e. takes the value mod `2 ^ 64`. -/
def toAddress (v : Value) : Address :=
  (v % (2 : Int) ^ 64).toNat

/-- `IntcodeProgram::read_at` / `Memory::read_at`: `self.raw_program[address]`.
Rust panics when the index is out of bounds; the panic is modelled as `none`. -/
def read_at (mem : List Value) (address : Address) : Option Value :=
  mem[address]?

/-- `IntcodeProgram::write_at`: `self.raw_program[address] = value`, with the
out-of-bounds panic modelled as `none`. -/
def write_at (mem : List Value) (value : Value) (address : Address) : Option (List Value) :=
  if address < mem.length then some (mem.set address value) else none

/-- `impl Clone for IntcodeProgram`: a fresh vector into which every cell of
the source is pushed in order. -/
def clone (program : List Value) : List Value :=
  program.foldl (fun acc v => acc ++ [v]) []

/-- The `Instruction` enum. -/
inductive Instruction where
  | Add (a b dest : Address)
  | Mult (a b dest : Address)
  | Halt
deriving DecidableEq

/-- `Cpu::instruction_at`: reads the opcode at `address`; opcodes 1 and 2 read
the following three cells and cast each with `as Address`; opcode 99 and every
other opcode alike produce `Halt` (the source comment says the catch-all arm
should error instead). -/
def instruction_at (address : Address) (program : List Value) : Option Instruction :=
  match read_at program address with
  | none => none
  | some opcode =>
    if opcode = 1 then
      match read_at program (address + 1), read_at program (address + 2),
          read_at program (address + 3) with
      | some p0, some p1, some r =>
        some (.Add (toAddress p0) (toAddress p1) (toAddress r))
      | _, _, _ => none
    else if opcode = 2 then
      match read_at program (address + 1), read_at program (address + 2),
          read_at program (address + 3) with
      | some p0, some p1, some r =>
        some (.Mult (toAddress p0) (toAddress p1) (toAddress r))
      | _, _, _ => none
    else some .Halt

/-- Outcome of `Cpu::execute`: normal return after a `Halt` (carrying the final
`instruction_ptr` and memory), a bounds panic, or exhaustion of the model's
fuel (proved unreachable for the fuel used by `execute`). -/
inductive ExecResult where
  | halted (ptr : Address) (mem : List Value)
  | bounds
  | outOfFuel
deriving DecidableEq

/-- The loop body of `Cpu::execute`, with explicit fuel.  Each iteration is
`get_next_instruction` (fetch at `ptr`, then `instruction_ptr += 4`) followed
by the dispatch: `Add`/`Mult` read both operand cells, write the sum/product
and continue; `Halt` returns with the already-incremented pointer. -/
def executeFuel : Nat → Address → List Value → ExecResult
  | 0, _, _ => .outOfFuel
  | fuel + 1, ptr, mem =>
    match instruction_at ptr mem with
    | none => .bounds
    | some .Halt => .halted (ptr + 4) mem
    | some (.Add a b d) =>
      match read_at mem a, read_at mem b with
      | some x, some y =>
        match write_at mem (x + y) d with
        | some mem2 => executeFuel fuel (ptr + 4) mem2
        | none => .bounds
      | _, _ => .bounds
    | some (.Mult a b d) =>
      match read_at mem a, read_at mem b with
      | some x, some y =>
        match write_at mem (x * y) d with
        | some mem2 => executeFuel fuel (ptr + 4) mem2
        | none => .bounds
      | _, _ => .bounds

/-- `Cpu::execute` started at instruction pointer `ptr` (a fresh `Cpu::new`
has `ptr = 0`).  The fuel `mem.length + 1` is sufficient because the pointer
grows by 4 at every fetch and a fetch beyond memory is a bounds panic. -/
def execute (ptr : Address) (mem : List Value) : ExecResult :=
  executeFuel (mem.length + 1) ptr mem

/-- `restore_gravity_assist`: `write_at(noun, 1); write_at(verb, 2)`. -/
def restore_gravity_assist (noun verb : Value) (program : List Value) :
    Option (List Value) :=
  match write_at program noun 1 with
  | none => none
  | some p1 => write_at p1 verb 2

/-- `try_with`: clone the template, patch noun/verb, run a fresh CPU, and test
whether cell 0 of the final memory equals 19690720. -/
def try_with (noun verb : Value) (program : List Value) : Option Bool :=
  match restore_gravity_assist noun verb (clone program) with
  | none => none
  | some patched =>
    match execute 0 patched with
    | .halted _ final =>
      match read_at final 0 with
      | some v => some (v == 19690720)
      | none => none
    | _ => none

/-- Outcome of `main`'s search: the printed `(noun, verb, 100 * noun + verb)`
on success, or the `No answer!` message on exhaustion. -/
inductive SearchOutcome where
  | found (noun verb answer : Value)
  | noAnswer
deriving DecidableEq

/-- The inner `for verb in 0..100` loop of `main`, over an explicit list of
verbs: first verb whose trial succeeds, `none` on a panic inside a trial. -/
def searchVerbs (program : List Value) (noun : Value) : List Value → Option (Option Value)
  | [] => some none
  | v :: rest =>
    match try_with noun v program with
    | none => none
    | some true => some (some v)
    | some false => searchVerbs program noun rest

/-- The outer `for noun in 0..100` loop of `main`. -/
def searchNouns (program : List Value) (nouns verbs : List Value) :
    Option (Option (Value × Value)) :=
  match nouns with
  | [] => some none
  | n :: rest =>
    match searchVerbs program n verbs with
    | none => none
    | some (some v) => some (some (n, v))
    | some none => searchNouns program rest verbs

/-- The iteration domain `0..100` of both loops, as `i64` values in order. -/
def range100 : List Value :=
  (List.range 100).map Int.ofNat

/-- The search in `main`: nouns outer, verbs inner, both `0..100`; prints
`noun and verb: answer 100*noun+verb` on the first success, else `No answer!`.
`none` models a panic escaping from a trial. -/
def main_search (program : List Value) : Option SearchOutcome :=
  match searchNouns program range100 range100 with
  | none => none
  | some (some (n, v)) => some (.found n v (100 * n + v))
  | some none => some .noAnswer

/-! Basic facts about the memory contract. -/

theorem read_at_lt {mem : List Value} {a : Nat} {x : Value}
    (h : read_at mem a = some x) : a < mem.length :=
  (List.getElem?_eq_some.mp h).1

theorem read_at_none {mem : List Value} {a : Nat} (h : mem.length ≤ a) :
    read_at mem a = none :=
  List.getElem?_eq_none h

theorem write_at_eq {mem : List Value} {v : Value} {a : Nat} {m2 : List Value}
    (h : write_at mem v a = some m2) : m2 = mem.set a v ∧ a < mem.length := by
  unfold write_at at h
  split at h
  · exact ⟨(Option.some.inj h).symm, by assumption⟩
  · exact absurd h (by simp)

theorem write_at_length {mem : List Value} {v : Value} {a : Nat} {m2 : List Value}
    (h : write_at mem v a = some m2) : m2.length = mem.length := by
  rw [(write_at_eq h).1, List.length_set]

theorem instruction_at_lt {ptr : Nat} {mem : List Value} {i : Instruction}
    (h : instruction_at ptr mem = some i) : ptr < mem.length := by
  rcases hr : read_at mem ptr with _ | x
  · simp only [instruction_at, hr] at h
    exact Option.noConfusion h
  · exact read_at_lt hr

/-! Fuel discipline: `mem.length + 1` units of fuel never run out, because the
pointer advances by 4 at every fetch and a fetch needs `ptr < mem.length`. -/

theorem executeFuel_no_fuel_exhaustion :
    ∀ (fuel ptr : Nat) (mem : List Value), mem.length ≤ ptr + 4 * fuel →
      executeFuel (fuel + 1) ptr mem ≠ .outOfFuel := by
  intro fuel
  induction fuel with
  | zero =>
    intro ptr mem hlen
    rcases hI : instruction_at ptr mem with _ | i
    · simp [executeFuel, hI]
    · have hlt : ptr < mem.length := instruction_at_lt hI
      exfalso
      omega
  | succ f ih =>
    intro ptr mem hlen
    rcases hI : instruction_at ptr mem with _ | i
    · simp [executeFuel, hI]
    · cases i with
      | Halt => simp [executeFuel, hI]
      | Add a b d =>
        rcases hx : read_at mem a with _ | x
        · simp [executeFuel, hI, hx]
        · rcases hy : read_at mem b with _ | y
          · simp [executeFuel, hI, hx, hy]
          · rcases hw : write_at mem (x + y) d with _ | mem2
            · simp [executeFuel, hI, hx, hy, hw]
            · have hl2 : mem2.length = mem.length := write_at_length hw
              simp only [executeFuel, hI, hx, hy, hw]
              exact ih (ptr + 4) mem2 (by omega)
      | Mult a b d =>
        rcases hx : read_at mem a with _ | x
        · simp [executeFuel, hI, hx]
        · rcases hy : read_at mem b with _ | y
          · simp [executeFuel, hI, hx, hy]
          · rcases hw : write_at mem (x * y) d with _ | mem2
            · simp [executeFuel, hI, hx, hy, hw]
            · have hl2 : mem2.length = mem.length := write_at_length hw
              simp only [executeFuel, hI, hx, hy, hw]
              exact ih (ptr + 4) mem2 (by omega)

theorem executeFuel_mono :
    ∀ (fuel fuel2 ptr : Nat) (mem : List Value), fuel ≤ fuel2 →
      executeFuel fuel ptr mem ≠ .outOfFuel →
      executeFuel fuel2 ptr mem = executeFuel fuel ptr mem := by
  intro fuel
  induction fuel with
  | zero =>
    intro fuel2 ptr mem _ h
    exact absurd rfl h
  | succ f ih =>
    intro fuel2 ptr mem hle h
    obtain ⟨f2, rfl⟩ : ∃ f2, fuel2 = f2 + 1 := ⟨fuel2 - 1, by omega⟩
    rcases hI : instruction_at ptr mem with _ | i
    · simp only [executeFuel, hI]
    · cases i with
      | Halt => simp only [executeFuel, hI]
      | Add a b d =>
        rcases hx : read_at mem a with _ | x
        · simp only [executeFuel, hI, hx]
        · rcases hy : read_at mem b with _ | y
          · simp only [executeFuel, hI, hx, hy]
          · rcases hw : write_at mem (x + y) d with _ | mem2
            · simp only [executeFuel, hI, hx, hy, hw]
            · simp only [executeFuel, hI, hx, hy, hw] at h ⊢
              exact ih f2 (ptr + 4) mem2 (by omega) h
      | Mult a b d =>
        rcases hx : read_at mem a with _ | x
        · simp only [executeFuel, hI, hx]
        · rcases hy : read_at mem b with _ | y
          · simp only [executeFuel, hI, hx, hy]
          · rcases hw : write_at mem (x * y) d with _ | mem2
            · simp only [executeFuel, hI, hx, hy, hw]
            · simp only [executeFuel, hI, hx, hy, hw] at h ⊢
              exact ih f2 (ptr + 4) mem2 (by omega) h

theorem execute_no_fuel_exhaustion (ptr : Nat) (mem : List Value) :
    execute ptr mem ≠ .outOfFuel :=
  executeFuel_no_fuel_exhaustion mem.length ptr mem (by omega)

theorem execute_halt {ptr : Nat} {mem : List Value}
    (hI : instruction_at ptr mem = some .Halt) :
    execute ptr mem = .halted (ptr + 4) mem := by
  simp only [execute, executeFuel, hI]

theorem execute_add {ptr : Nat} {mem mem2 : List Value} {a b d : Nat} {x y : Value}
    (hI : instruction_at ptr mem = some (.Add a b d))
    (hx : read_at mem a = some x) (hy : read_at mem b = some y)
    (hw : write_at mem (x + y) d = some mem2) :
    execute ptr mem = execute (ptr + 4) mem2 := by
  have hlen : mem2.length = mem.length := write_at_length hw
  have hptr : ptr < mem.length := instruction_at_lt hI
  have h1 : execute ptr mem = executeFuel mem.length (ptr + 4) mem2 := by
    simp only [execute, executeFuel, hI, hx, hy, hw]
  obtain ⟨k, hk⟩ : ∃ k, mem.length = k + 1 := ⟨mem.length - 1, by omega⟩
  have h2 : executeFuel (k + 1) (ptr + 4) mem2 ≠ .outOfFuel :=
    executeFuel_no_fuel_exhaustion k (ptr + 4) mem2 (by omega)
  have h3 : executeFuel (mem2.length + 1) (ptr + 4) mem2 = executeFuel (k + 1) (ptr + 4) mem2 :=
    executeFuel_mono (k + 1) (mem2.length + 1) (ptr + 4) mem2 (by omega) h2
  rw [h1, hk]
  exact h3.symm

theorem execute_mult {ptr : Nat} {mem mem2 : List Value} {a b d : Nat} {x y : Value}
    (hI : instruction_at ptr mem = some (.Mult a b d))
    (hx : read_at mem a = some x) (hy : read_at mem b = some y)
    (hw : write_at mem (x * y) d = some mem2) :
    execute ptr mem = execute (ptr + 4) mem2 := by
  have hlen : mem2.length = mem.length := write_at_length hw
  have hptr : ptr < mem.length := instruction_at_lt hI
  have h1 : execute ptr mem = executeFuel mem.length (ptr + 4) mem2 := by
    simp only [execute, executeFuel, hI, hx, hy, hw]
  obtain ⟨k, hk⟩ : ∃ k, mem.length = k + 1 := ⟨mem.length - 1, by omega⟩
  have h2 : executeFuel (k + 1) (ptr + 4) mem2 ≠ .outOfFuel :=
    executeFuel_no_fuel_exhaustion k (ptr + 4) mem2 (by omega)
  have h3 : executeFuel (mem2.length + 1) (ptr + 4) mem2 = executeFuel (k + 1) (ptr + 4) mem2 :=
    executeFuel_mono (k + 1) (mem2.length + 1) (ptr + 4) mem2 (by omega) h2
  rw [h1, hk]
  exact h3.symm

/-- Whenever the loop returns normally, the final pointer is 4 past the cell
whose opcode decoded to `Halt` (the fetch increments before the dispatch). -/
theorem executeFuel_halted_ptr :
    ∀ (fuel ptr : Nat) (mem : List Value) (p2 : Nat) (m2 : List Value),
      executeFuel fuel ptr mem = .halted p2 m2 →
      ∃ hp, p2 = hp + 4 ∧ instruction_at hp m2 = some .Halt := by
  intro fuel
  induction fuel with
  | zero =>
    intro ptr mem p2 m2 h
    exact absurd h (by simp [executeFuel])
  | succ f ih =>
    intro ptr mem p2 m2 h
    rcases hI : instruction_at ptr mem with _ | i
    · simp [executeFuel, hI] at h
    · cases i with
      | Halt =>
        simp only [executeFuel, hI, ExecResult.halted.injEq] at h
        obtain ⟨h1, h2⟩ := h
        refine ⟨ptr, h1.symm, ?_⟩
        rw [← h2]
        exact hI
      | Add a b d =>
        rcases hx : read_at mem a with _ | x
        · simp [executeFuel, hI, hx] at h
        · rcases hy : read_at mem b with _ | y
          · simp [executeFuel, hI, hx, hy] at h
          · rcases hw : write_at mem (x + y) d with _ | mem2
            · simp [executeFuel, hI, hx, hy, hw] at h
            · simp only [executeFuel, hI, hx, hy, hw] at h
              exact ih (ptr + 4) mem2 p2 m2 h
      | Mult a b d =>
        rcases hx : read_at mem a with _ | x
        · simp [executeFuel, hI, hx] at h
        · rcases hy : read_at mem b with _ | y
          · simp [executeFuel, hI, hx, hy] at h
          · rcases hw : write_at mem (x * y) d with _ | mem2
            · simp [executeFuel, hI, hx, hy, hw] at h
            · simp only [executeFuel, hI, hx, hy, hw] at h
              exact ih (ptr + 4) mem2 p2 m2 h

theorem execute_halted_ptr {ptr : Nat} {mem : List Value} {p2 : Nat} {m2 : List Value}
    (h : execute ptr mem = .halted p2 m2) :
    ∃ hp, p2 = hp + 4 ∧ instruction_at hp m2 = some .Halt :=
  executeFuel_halted_ptr (mem.length + 1) ptr mem p2 m2 h

/-! The duplication operation copies every cell by value. -/

theorem foldl_push (p : List Value) :
    ∀ acc : List Value, p.foldl (fun acc v => acc ++ [v]) acc = acc ++ p := by
  induction p with
  | nil => intro acc; simp
  | cons v rest ih => intro acc; simp [List.foldl_cons, ih]

theorem clone_eq (p : List Value) : clone p = p := by
  simp [clone, foldl_push]

/-- C1: a step at pointer `p` whose opcode cell reads 1 (respectively 2) takes
the next three cells as operand values `va, vb, vd`, converts each to an
address with the `as usize` cast, dereferences the first two, writes the sum
(respectively the product) at the third, and continues the loop at `p + 4`;
the operands are always dereferenced, never used as immediates. -/
theorem add_mult_dereference_step (p : Nat) (mem : List Value) (va vb vd x y : Value)
    (h1 : read_at mem (p + 1) = some va)
    (h2 : read_at mem (p + 2) = some vb)
    (h3 : read_at mem (p + 3) = some vd)
    (hx : read_at mem (toAddress va) = some x)
    (hy : read_at mem (toAddress vb) = some y)
    (hd : toAddress vd < mem.length) :
    (read_at mem p = some 1 →
      execute p mem = execute (p + 4) (mem.set (toAddress vd) (x + y))) ∧
    (read_at mem p = some 2 →
      execute p mem = execute (p + 4) (mem.set (toAddress vd) (x * y))) := by
  constructor
  · intro hop
    have hI : instruction_at p mem
        = some (.Add (toAddress va) (toAddress vb) (toAddress vd)) := by
      simp [instruction_at, hop, h1, h2, h3]
    have hw : write_at mem (x + y) (toAddress vd)
        = some (mem.set (toAddress vd) (x + y)) := by
      simp [write_at, hd]
    exact execute_add hI hx hy hw
  · intro hop
    have hI : instruction_at p mem
        = some (.Mult (toAddress va) (toAddress vb) (toAddress vd)) := by
      simp [instruction_at, hop, h1, h2, h3]
    have hw : write_at mem (x * y) (toAddress vd)
        = some (mem.set (toAddress vd) (x * y)) := by
      simp [write_at, hd]
    exact execute_mult hI hx hy hw

/-- C1 witness: the add step of `[1,0,0,0,99]` at pointer 0. -/
theorem add_mult_dereference_step_witness :
    execute 0 [1, 0, 0, 0, 99] = execute 4 ([1, 0, 0, 0, 99].set (toAddress 0) (1 + 1)) :=
  (add_mult_dereference_step 0 [1, 0, 0, 0, 99] 0 0 0 1 1 (by decide) (by decide)
    (by decide) (by decide) (by decide) (by decide)).1 (by decide)

/-- C2 counterexample: on `[1,0,0,0,99]` the loop halts with the instruction
pointer at 8, not at the halt instruction's address 4 — `get_next_instruction`
advances the pointer by 4 before the `Halt` is dispatched. -/
theorem halt_ptr_counterexample :
    execute 0 [1, 0, 0, 0, 99] = .halted 8 [2, 0, 0, 0, 99] ∧ 8 ≠ 4 := by
  constructor
  · decide
  · decide

/-- C2 amended: whenever the loop terminates normally, the final instruction
pointer is the halt instruction's address plus 4 (the fetch advances the
pointer past the halt instruction before dispatching it). -/
theorem halt_ptr_advanced (ptr : Nat) (mem : List Value) (p2 : Nat) (m2 : List Value)
    (h : execute ptr mem = .halted p2 m2) :
    ∃ hp, p2 = hp + 4 ∧ instruction_at hp m2 = some .Halt :=
  execute_halted_ptr h

/-- C2 witness: for `[1,0,0,0,99]` the final pointer 8 is 4 past the halt at 4. -/
theorem halt_ptr_advanced_witness :
    ∃ hp, 8 = hp + 4 ∧ instruction_at hp [2, 0, 0, 0, 99] = some .Halt :=
  halt_ptr_advanced 0 [1, 0, 0, 0, 99] 8 [2, 0, 0, 0, 99] (by decide)

/-- C4: any opcode other than 1, 2 and 99 decodes to `Halt`, and the loop
then terminates exactly as it would on an explicit halt opcode. -/
theorem unknown_opcode_halts (ptr : Nat) (mem : List Value) (op : Value)
    (hop : read_at mem ptr = some op) (h1 : op ≠ 1) (h2 : op ≠ 2) (h99 : op ≠ 99) :
    instruction_at ptr mem = some .Halt ∧ execute ptr mem = .halted (ptr + 4) mem := by
  have hI : instruction_at ptr mem = some .Halt := by
    simp [instruction_at, hop, h1, h2]
  exact ⟨hI, execute_halt hI⟩

/-- C4 witness: opcode 7 at address 0. -/
theorem unknown_opcode_halts_witness :
    instruction_at 0 [7] = some Instruction.Halt ∧ execute 0 [7] = .halted 4 [7] :=
  unknown_opcode_halts 0 [7] 7 (by decide) (by decide) (by decide) (by decide)

/-- C5: duplication is a deep, value-identical copy: the clone's cell sequence
equals the original's, and a write to the clone produces the pointwise update
of its own cells only — every cell of the original (and therefore of any other
clone, which also equals the original) keeps its value. -/
theorem clone_independent (p : List Value) :
    clone p = p ∧
    ∀ (v : Value) (a : Nat) (d : List Value), write_at (clone p) v a = some d →
      d = p.set a v ∧ read_at d a = some v ∧ ∀ i, i ≠ a → read_at d i = read_at p i := by
  refine ⟨clone_eq p, ?_⟩
  intro v a d hw
  obtain ⟨hd, ha⟩ := write_at_eq hw
  rw [clone_eq] at hd ha
  subst hd
  refine ⟨rfl, ?_, ?_⟩
  · simpa [read_at] using List.getElem?_set_self (a := v) ha
  · intro i hi
    simpa [read_at] using List.getElem?_set_ne (a := v) (l := p) (Ne.symm hi)

/-- C5 witness: cloning `[3,4,5]` and writing 9 at cell 0 of the clone. -/
theorem clone_independent_witness :
    clone [3, 4, 5] = [3, 4, 5] ∧
    ∀ (v : Value) (a : Nat) (d : List Value), write_at (clone [3, 4, 5]) v a = some d →
      d = [3, 4, 5].set a v ∧ read_at d a = some v ∧
        ∀ i, i ≠ a → read_at d i = read_at [3, 4, 5] i :=
  clone_independent [3, 4, 5]

/-- C6: reads and writes outside `[0, length)` fail (the modelled panic), and
inside the range a read returns the cell's value while a write overwrites
exactly that cell, leaving every other cell unchanged. -/
theorem memory_bounds_contract (mem : List Value) (a : Nat) (v : Value) :
    (mem.length ≤ a → read_at mem a = none ∧ write_at mem v a = none) ∧
    (a < mem.length →
      read_at mem a = some (mem.getD a 0) ∧
      write_at mem v a = some (mem.set a v) ∧
      read_at (mem.set a v) a = some v ∧
      ∀ j, j ≠ a → read_at (mem.set a v) j = read_at mem j) := by
  constructor
  · intro h
    refine ⟨read_at_none h, ?_⟩
    have hnc : ¬ a < mem.length := Nat.not_lt.mpr h
    simp only [write_at, if_neg hnc]
  · intro h
    refine ⟨?_, ?_, ?_, ?_⟩
    · simp [read_at, List.getElem?_eq_getElem h, List.getD]
    · simp only [write_at, if_pos h]
    · simpa [read_at] using List.getElem?_set_self (a := v) h
    · intro j hj
      simpa [read_at] using List.getElem?_set_ne (a := v) (l := mem) (Ne.symm hj)

/-- C6 witness: in-bounds read and write on `[5,6]` at address 0, and the
out-of-bounds case at address 2. -/
theorem memory_bounds_contract_witness :
    read_at ([5, 6].set 0 7) 0 = some 7 ∧ read_at [5, 6] 2 = none :=
  ⟨((memory_bounds_contract [5, 6] 0 7).2 (by decide)).2.2.1,
    ((memory_bounds_contract [5, 6] 2 7).1 (by decide)).1⟩

/-- C8: started at pointer 0, the execute loop always terminates on a finite
memory: it either returns normally via a halt or aborts with a bounds failure
(in the fuel model, the fuel `mem.length + 1` is never exhausted, because the
pointer strictly increases by 4 at every fetch and a fetch needs an in-bounds
pointer); there is no other guard and no step budget. -/
theorem execute_always_terminates (mem : List Value) :
    (∃ p2 m2, execute 0 mem = .halted p2 m2) ∨ execute 0 mem = .bounds := by
  cases h : execute 0 mem with
  | halted p2 m2 => exact Or.inl ⟨p2, m2, rfl⟩
  | bounds => exact Or.inr rfl
  | outOfFuel => exact absurd h (execute_no_fuel_exhaustion 0 mem)

/-- C9: a memory whose cell 0 holds 99 halts immediately: no cell is written,
no cell beyond address 0 is read (the hypothesis constrains only cell 0, and
even a one-cell memory is covered), and the result is a normal halt. -/
theorem halt_immediate (mem : List Value) (h : read_at mem 0 = some 99) :
    execute 0 mem = .halted 4 mem := by
  have hI : instruction_at 0 mem = some .Halt := by
    simp [instruction_at, h]
  exact execute_halt hI

/-- C9 witness: the one-cell program `[99]` halts without a bounds failure. -/
theorem halt_immediate_witness : execute 0 [99] = .halted 4 [99] :=
  halt_immediate [99] (by decide)

/-- C10: a negative `i64` operand is not rejected: the decoder still produces
an instruction, the `as usize` cast wraps it to `v + 2 ^ 64`, an address of at
least `2 ^ 63`, and any later read or write through it fails as an ordinary
out-of-bounds condition on any realistically sized memory. -/
theorem negative_operand_wraps (v : Int) (hlo : -(2 ^ 63) ≤ v) (hneg : v < 0) :
    toAddress v = (v + 2 ^ 64).toNat ∧
    2 ^ 63 ≤ toAddress v ∧
    (∀ mem : List Value, mem.length ≤ 2 ^ 63 →
      read_at mem (toAddress v) = none ∧ ∀ x, write_at mem x (toAddress v) = none) ∧
    (∀ (mem : List Value) (p : Nat) (vb vd : Value),
      read_at mem p = some 1 → read_at mem (p + 1) = some v →
      read_at mem (p + 2) = some vb → read_at mem (p + 3) = some vd →
      instruction_at p mem = some (.Add (toAddress v) (toAddress vb) (toAddress vd))) := by
  have e64 : (2 : Int) ^ 64 = 18446744073709551616 := by norm_num
  have e63 : (2 : Int) ^ 63 = 9223372036854775808 := by norm_num
  have n63 : (2 : Nat) ^ 63 = 9223372036854775808 := by norm_num
  rw [e63] at hlo
  have hmod : v % (2 : Int) ^ 64 = v + 2 ^ 64 := by
    rw [e64]
    omega
  have htoA : toAddress v = (v + 2 ^ 64).toNat := by
    rw [toAddress, hmod]
  have hbig : (9223372036854775808 : Nat) ≤ toAddress v := by
    rw [htoA, e64]
    omega
  refine ⟨htoA, by rw [n63]; exact hbig, ?_, ?_⟩
  · intro mem hlen
    have hlen2 : mem.length ≤ 9223372036854775808 := by
      calc mem.length ≤ 2 ^ 63 := hlen
        _ = 9223372036854775808 := n63
    have hle : mem.length ≤ toAddress v := by omega
    refine ⟨read_at_none hle, ?_⟩
    intro x
    have hnc : ¬ toAddress v < mem.length := Nat.not_lt.mpr hle
    simp only [write_at, if_neg hnc]
  · intro mem p vb vd hop hv hb hdst
    simp [instruction_at, hop, hv, hb, hdst]

/-- C10 witness: operand value -1 wraps to address `2 ^ 64 - 1`. -/
theorem negative_operand_wraps_witness : 2 ^ 63 ≤ toAddress (-1) :=
  (negative_operand_wraps (-1) (by norm_num) (by norm_num)).2.1

/-! Structure of the nested search loops. -/

theorem searchVerbs_none {program : List Value} {noun : Value} :
    ∀ verbs : List Value, (∀ w ∈ verbs, try_with noun w program = some false) →
      searchVerbs program noun verbs = some none := by
  intro verbs
  induction verbs with
  | nil => intro _; rfl
  | cons w rest ih =>
    intro h
    have hw : try_with noun w program = some false := h w (by simp)
    simp only [searchVerbs, hw]
    exact ih (fun u hu => h u (by simp [hu]))

theorem searchVerbs_none_all {program : List Value} {noun : Value} :
    ∀ verbs : List Value, searchVerbs program noun verbs = some none →
      ∀ w ∈ verbs, try_with noun w program = some false := by
  intro verbs
  induction verbs with
  | nil =>
    intro _ w hw
    simp at hw
  | cons u rest ih =>
    intro h w hw
    rcases hu : try_with noun u program with _ | b
    · simp [searchVerbs, hu] at h
    · cases b with
      | true => simp [searchVerbs, hu] at h
      | false =>
        simp only [searchVerbs, hu] at h
        rcases List.mem_cons.mp hw with h1 | h2
        · subst h1; exact hu
        · exact ih h w h2

theorem searchVerbs_found {program : List Value} {noun : Value} :
    ∀ (verbs : List Value) (v : Value), searchVerbs program noun verbs = some (some v) →
      ∃ pre post, verbs = pre ++ v :: post ∧ try_with noun v program = some true ∧
        ∀ w ∈ pre, try_with noun w program = some false := by
  intro verbs
  induction verbs with
  | nil =>
    intro v h
    simp [searchVerbs] at h
  | cons w rest ih =>
    intro v h
    rcases hw : try_with noun w program with _ | b
    · simp [searchVerbs, hw] at h
    · cases b with
      | true =>
        simp only [searchVerbs, hw, Option.some.injEq] at h
        subst h
        exact ⟨[], rest, rfl, hw, by simp⟩
      | false =>
        simp only [searchVerbs, hw] at h
        obtain ⟨pre, post, heq, htrue, hfalse⟩ := ih v h
        refine ⟨w :: pre, post, by simp [heq], htrue, ?_⟩
        intro u hu
        rcases List.mem_cons.mp hu with h1 | h2
        · subst h1; exact hw
        · exact hfalse u h2

theorem searchNouns_none {program : List Value} :
    ∀ nouns verbs : List Value, (∀ m ∈ nouns, searchVerbs program m verbs = some none) →
      searchNouns program nouns verbs = some none := by
  intro nouns
  induction nouns with
  | nil => intro _ _; rfl
  | cons m rest ih =>
    intro verbs h
    have hm : searchVerbs program m verbs = some none := h m (by simp)
    simp only [searchNouns, hm]
    exact ih verbs (fun u hu => h u (by simp [hu]))

theorem searchNouns_found {program : List Value} :
    ∀ (nouns verbs : List Value) (n v : Value),
      searchNouns program nouns verbs = some (some (n, v)) →
      ∃ preN postN, nouns = preN ++ n :: postN ∧
        searchVerbs program n verbs = some (some v) ∧
        ∀ m ∈ preN, searchVerbs program m verbs = some none := by
  intro nouns
  induction nouns with
  | nil =>
    intro verbs n v h
    simp [searchNouns] at h
  | cons m rest ih =>
    intro verbs n v h
    rcases hm : searchVerbs program m verbs with _ | r
    · simp [searchNouns, hm] at h
    · cases r with
      | none =>
        simp only [searchNouns, hm] at h
        obtain ⟨preN, postN, heq, hsv, hall⟩ := ih verbs n v h
        refine ⟨m :: preN, postN, by simp [heq], hsv, ?_⟩
        intro u hu
        rcases List.mem_cons.mp hu with h1 | h2
        · subst h1; exact hm
        · exact hall u h2
      | some v2 =>
        simp only [searchNouns, hm, Option.some.injEq] at h
        obtain ⟨h1, h2⟩ : m = n ∧ v2 = v := by
          constructor
          · exact congrArg Prod.fst h
          · exact congrArg Prod.snd h
        subst h1
        subst h2
        exact ⟨[], rest, rfl, hm, by simp⟩

/-! The iteration domain `0..100` is the ascending list of integers below 100. -/

theorem rangeCast_mem_iff (k : Nat) (w : Int) :
    w ∈ (List.range k).map Int.ofNat ↔ 0 ≤ w ∧ w < (k : Int) := by
  constructor
  · intro hw
    obtain ⟨a, ha, haw⟩ := List.mem_map.mp hw
    have ha2 : a < k := List.mem_range.mp ha
    have haw2 : (a : Int) = w := haw
    omega
  · intro hw
    refine List.mem_map.mpr ⟨w.toNat, List.mem_range.mpr (by omega), ?_⟩
    show ((w.toNat : Nat) : Int) = w
    omega

theorem range100_split {pre post : List Value} {x : Int}
    (h : range100 = pre ++ x :: post) :
    pre.length < 100 ∧ x = (pre.length : Int) ∧
      ∀ w : Int, w ∈ pre ↔ 0 ≤ w ∧ w < (pre.length : Int) := by
  have hlen : (100 : Nat) = pre.length + (post.length + 1) := by
    have h1 := congrArg List.length h
    simpa [range100] using h1
  have hlt : pre.length < 100 := by omega
  have hpre : pre = (List.range pre.length).map Int.ofNat := by
    have h1 : (pre ++ x :: post).take pre.length = pre := List.take_left pre (x :: post)
    rw [← h, range100, ← List.map_take, List.take_range,
      Nat.min_eq_left (Nat.le_of_lt hlt)] at h1
    exact h1.symm
  have hx : x = (pre.length : Int) := by
    have h1 : (pre ++ x :: post)[pre.length]? = some x := by
      rw [List.getElem?_append_right (Nat.le_refl pre.length)]
      simp
    rw [← h, range100, List.getElem?_map, List.getElem?_range hlt] at h1
    have h2 : some (Int.ofNat pre.length) = some x := h1
    exact (Option.some.inj h2).symm
  refine ⟨hlt, hx, ?_⟩
  intro w
  constructor
  · intro hw
    rw [hpre] at hw
    exact (rangeCast_mem_iff pre.length w).mp hw
  · intro hw
    rw [hpre]
    exact (rangeCast_mem_iff pre.length w).mpr hw

/-- C3: when the search reports a found pair, the reported answer is
`100 * noun + verb`, the pair lies in `[0,100) × [0,100)`, its trial succeeds,
and every pair that the noun-outer/verb-inner ascending iteration order visits
earlier has a completed trial that fails — the result is the first success. -/
theorem search_first_success (program : List Value) (n v a : Int)
    (h : main_search program = some (.found n v a)) :
    a = 100 * n + v ∧ 0 ≤ n ∧ n < 100 ∧ 0 ≤ v ∧ v < 100 ∧
      try_with n v program = some true ∧
      ∀ n1 v1 : Int, 0 ≤ n1 → 0 ≤ v1 → v1 < 100 →
        (n1 < n ∨ (n1 = n ∧ v1 < v)) → try_with n1 v1 program = some false := by
  rcases hs : searchNouns program range100 range100 with _ | r
  · rw [main_search, hs] at h
    exact Option.noConfusion h
  · rcases r with _ | ⟨n0, v0⟩
    · rw [main_search, hs] at h
      simp at h
    · rw [main_search, hs] at h
      simp only [Option.some.injEq, SearchOutcome.found.injEq] at h
      obtain ⟨hn0, hv0, ha⟩ := h
      rw [hn0, hv0] at hs ha
      obtain ⟨preN, postN, hN, hsvN, hallN⟩ :=
        searchNouns_found range100 range100 n v hs
      obtain ⟨hNlt, hNx, hNmem⟩ := range100_split hN
      obtain ⟨preV, postV, hV, htrue, hallV⟩ := searchVerbs_found range100 v hsvN
      obtain ⟨hVlt, hVx, hVmem⟩ := range100_split hV
      refine ⟨ha.symm, by omega, by omega, by omega, by omega, htrue, ?_⟩
      intro n1 v1 h0n h0v hv1 hcase
      rcases hcase with hlt | ⟨heq, hblt⟩
      · have hn1 : n1 ∈ preN := (hNmem n1).mpr ⟨h0n, by omega⟩
        have hsv1 : searchVerbs program n1 range100 = some none := hallN n1 hn1
        have hv1mem : v1 ∈ range100 := by
          rw [range100]
          exact (rangeCast_mem_iff 100 v1).mpr ⟨h0v, by omega⟩
        exact searchVerbs_none_all range100 hsv1 v1 hv1mem
      · subst heq
        have hv1pre : v1 ∈ preV := (hVmem v1).mpr ⟨h0v, by omega⟩
        exact hallV v1 hv1pre

/-- C3 witness: a template whose very first trial (noun 0, verb 0) succeeds. -/
theorem search_first_success_witness :
    try_with 0 0 [1, 0, 0, 3, 1, 9, 10, 0, 99, 19690000, 720] = some true :=
  (search_first_success [1, 0, 0, 3, 1, 9, 10, 0, 99, 19690000, 720] 0 0 0
    (by decide)).2.2.2.2.2.1

/-- C7: when every trial in `[0,100) × [0,100)` completes and fails, the
search terminates with the explicit no-answer outcome — a normal return,
not the modelled panic `none`. -/
theorem search_exhaustion_no_answer (program : List Value)
    (h : ∀ n : Nat, n < 100 → ∀ v : Nat, v < 100 →
      try_with (n : Int) (v : Int) program = some false) :
    main_search program = some .noAnswer := by
  have hall : ∀ m ∈ range100, searchVerbs program m range100 = some none := by
    intro m hm
    rw [range100] at hm
    obtain ⟨hm0, hm1⟩ := (rangeCast_mem_iff 100 m).mp hm
    apply searchVerbs_none
    intro w hw
    rw [range100] at hw
    obtain ⟨hw0, hw1⟩ := (rangeCast_mem_iff 100 w).mp hw
    have hmn : ((m.toNat : Int)) = m := by omega
    have hwn : ((w.toNat : Int)) = w := by omega
    have := h m.toNat (by omega) w.toNat (by omega)
    rw [hmn, hwn] at this
    exact this
  have hs : searchNouns program range100 range100 = some none :=
    searchNouns_none range100 range100 hall
  rw [main_search, hs]

set_option maxRecDepth 10000 in
set_option maxHeartbeats 4000000 in
/-- C7 witness: `[99, 0, 0]` halts instantly in every trial with cell 0 equal
to 99, so all 10000 trials fail and the search reports no answer. -/
theorem search_exhaustion_no_answer_witness :
    main_search [99, 0, 0] = some SearchOutcome.noAnswer :=
  search_exhaustion_no_answer [99, 0, 0] (by decide)

end Day2
